import Mathlib

/-!
Shallow embedding of the API-specification aggregation engine of
`src/plugins/actix-web/src/lib.rs` (the paperclip actix-web plugin).

Rust `BTreeMap<K, V>` values are modelled as association lists
`List (K × V)` whose keys are kept in strictly increasing order by the
`sinsert` operation; `slookup` is keyed lookup, `sextend` is
`BTreeMap::extend` (insert every pair of the argument, overwriting on key
collision).  The document, path-item and contributor types mirror the
fields the source manipulates; operation, schema, security-scheme and
parameter payloads are opaque type parameters since the engine treats them
as atomic values.
-/

namespace Paperclip

/-- A computable strict comparison agreeing with the order, used for the
key comparisons a `BTreeMap` performs on insertion (the order instances
Mathlib installs on `String` do not reduce inside the kernel, so concrete
map computations go through this Boolean comparison instead). -/
class KeyCmp (K : Type) [LinearOrder K] where
  klt : K → K → Bool
  klt_iff : ∀ a b : K, klt a b = true ↔ a < b

theorem klt_pos {K : Type} [LinearOrder K] [KeyCmp K] {a b : K}
    (h : a < b) : KeyCmp.klt a b = true :=
  (KeyCmp.klt_iff a b).mpr h

theorem klt_neg {K : Type} [LinearOrder K] [KeyCmp K] {a b : K}
    (h : ¬ a < b) : KeyCmp.klt a b = false := by
  cases hb : KeyCmp.klt a b with
  | false => rfl
  | true => exact absurd ((KeyCmp.klt_iff a b).mp hb) h

instance : KeyCmp String where
  klt a b := decide (a.data < b.data)
  klt_iff a b := by
    rw [decide_eq_true_eq]
    exact String.lt_iff_toList_lt.symm

section Smap

variable {K : Type} [LinearOrder K] [DecidableEq K] [KeyCmp K] {V W : Type}

/-- Keyed lookup in an association list (`BTreeMap::get`). -/
def slookup : List (K × V) → K → Option V
  | [], _ => none
  | (k, v) :: t, q => if q = k then some v else slookup t q

/-- Ordered insert with overwrite on an existing key (`BTreeMap::insert`). -/
def sinsert : List (K × V) → K → V → List (K × V)
  | [], k, v => [(k, v)]
  | (k0, v0) :: t, k, v =>
    if KeyCmp.klt k k0 then (k, v) :: (k0, v0) :: t
    else if k = k0 then (k, v) :: t
    else (k0, v0) :: sinsert t k v

/-- `BTreeMap::extend`: insert every pair of `l` into `m`, overwriting on
key collision. -/
def sextend (m l : List (K × V)) : List (K × V) :=
  l.foldl (fun a kv => sinsert a kv.1 kv.2) m

/-- Apply a function to every value of the map, keys untouched. -/
def mapValues (f : V → W) (l : List (K × V)) : List (K × W) :=
  l.map (fun kv => (kv.1, f kv.2))

/-- The keys appear in strictly increasing order (the `BTreeMap` invariant). -/
def SortedKeys (l : List (K × V)) : Prop :=
  (l.map Prod.fst).Pairwise (· < ·)

/-- The keys are pairwise distinct. -/
def NodupKeys (l : List (K × V)) : Prop :=
  (l.map Prod.fst).Nodup

/-- Left-biased union of two optional values. -/
def oUnion (a b : Option V) : Option V :=
  match a with
  | some v => some v
  | none => b

theorem slookup_sinsert_self (l : List (K × V)) (k : K) (v : V) :
    slookup (sinsert l k v) k = some v := by
  induction l with
  | nil => simp [sinsert, slookup]
  | cons hd t ih =>
    obtain ⟨k0, v0⟩ := hd
    by_cases h1 : k < k0
    · simp [sinsert, klt_pos h1, slookup]
    · by_cases h2 : k = k0
      · subst h2
        simp [sinsert, klt_neg h1, slookup]
      · simp [sinsert, klt_neg h1, h2, slookup, ih]

theorem slookup_sinsert_ne (l : List (K × V)) (k : K) (v : V) (q : K)
    (hq : q ≠ k) : slookup (sinsert l k v) q = slookup l q := by
  induction l with
  | nil => simp [sinsert, slookup, hq]
  | cons hd t ih =>
    obtain ⟨k0, v0⟩ := hd
    by_cases h1 : k < k0
    · simp [sinsert, klt_pos h1, slookup, hq]
    · by_cases h2 : k = k0
      · subst h2
        simp [sinsert, klt_neg h1, slookup, hq]
      · simp [sinsert, klt_neg h1, h2, slookup, ih]

theorem slookup_eq_none_of_not_mem (l : List (K × V)) (k : K)
    (h : k ∉ l.map Prod.fst) : slookup l k = none := by
  induction l with
  | nil => simp [slookup]
  | cons hd t ih =>
    obtain ⟨k0, v0⟩ := hd
    simp only [List.map_cons, List.mem_cons] at h
    push_neg at h
    simp [slookup, h.1, ih h.2]

theorem mem_keys_of_slookup (l : List (K × V)) (k : K) (v : V)
    (h : slookup l k = some v) : k ∈ l.map Prod.fst := by
  induction l with
  | nil => simp [slookup] at h
  | cons hd t ih =>
    obtain ⟨k0, v0⟩ := hd
    by_cases hk : k = k0
    · simp [hk]
    · simp only [slookup, if_neg hk] at h
      simp [ih h]

theorem slookup_sextend (m l : List (K × V)) (k : K) (h : NodupKeys l) :
    slookup (sextend m l) k = oUnion (slookup l k) (slookup m k) := by
  induction l generalizing m with
  | nil => simp [sextend, slookup, oUnion]
  | cons hd t ih =>
    obtain ⟨k0, v0⟩ := hd
    have hstep : sextend m ((k0, v0) :: t) = sextend (sinsert m k0 v0) t := rfl
    unfold NodupKeys at h
    simp only [List.map_cons, List.nodup_cons] at h
    by_cases hk : k = k0
    · subst hk
      have ht : slookup t k = none :=
        slookup_eq_none_of_not_mem t k h.1
      rw [hstep, ih (sinsert m k v0) h.2, ht]
      simp [slookup, oUnion, slookup_sinsert_self]
    · rw [hstep, ih (sinsert m k0 v0) h.2, slookup_sinsert_ne m k0 v0 k hk]
      simp [slookup, hk]

theorem slookup_mapValues (f : V → W) (l : List (K × V)) (k : K) :
    slookup (mapValues f l) k = (slookup l k).map f := by
  induction l with
  | nil => simp [mapValues, slookup]
  | cons hd t ih =>
    obtain ⟨k0, v0⟩ := hd
    by_cases hk : k = k0
    · simp [mapValues, slookup, hk]
    · simp only [mapValues, List.map_cons, slookup, if_neg hk]
      exact ih

theorem isSome_slookup_sinsert (l : List (K × V)) (k : K) (v : V) (q : K) :
    (slookup (sinsert l k v) q).isSome ↔ q = k ∨ (slookup l q).isSome := by
  by_cases hq : q = k
  · subst hq
    simp [slookup_sinsert_self]
  · rw [slookup_sinsert_ne l k v q hq]
    simp [hq]

theorem isSome_slookup_sextend_mono (m l : List (K × V)) (k : K)
    (h : (slookup m k).isSome) : (slookup (sextend m l) k).isSome := by
  induction l generalizing m with
  | nil => exact h
  | cons hd t ih =>
    obtain ⟨k0, v0⟩ := hd
    have hstep : sextend m ((k0, v0) :: t) = sextend (sinsert m k0 v0) t := rfl
    rw [hstep]
    exact ih (sinsert m k0 v0) ((isSome_slookup_sinsert m k0 v0 k).mpr (Or.inr h))

theorem mem_keys_sinsert (l : List (K × V)) (k : K) (v : V) (a : K)
    (ha : a ∈ (sinsert l k v).map Prod.fst) : a = k ∨ a ∈ l.map Prod.fst := by
  induction l with
  | nil =>
    simp only [sinsert, List.map_cons, List.map_nil, List.mem_cons,
      List.not_mem_nil, or_false] at ha
    exact Or.inl ha
  | cons hd t ih =>
    obtain ⟨k0, v0⟩ := hd
    by_cases g1 : k < k0
    · have e : sinsert ((k0, v0) :: t) k v = (k, v) :: (k0, v0) :: t := by
        simp [sinsert, klt_pos g1]
      rw [e] at ha
      simp only [List.map_cons, List.mem_cons] at ha ⊢
      tauto
    · by_cases g2 : k = k0
      · subst g2
        have e : sinsert ((k, v0) :: t) k v = (k, v) :: t := by
          simp [sinsert, klt_neg g1]
        rw [e] at ha
        simp only [List.map_cons, List.mem_cons] at ha ⊢
        tauto
      · have e : sinsert ((k0, v0) :: t) k v = (k0, v0) :: sinsert t k v := by
          simp [sinsert, klt_neg g1, g2]
        rw [e] at ha
        simp only [List.map_cons, List.mem_cons] at ha
        rcases ha with rfl | h'
        · exact Or.inr (by simp)
        · rcases ih h' with h2 | h2
          · exact Or.inl h2
          · exact Or.inr (by simp [h2])

theorem sinsert_sortedKeys (l : List (K × V)) (k : K) (v : V)
    (h : SortedKeys l) : SortedKeys (sinsert l k v) := by
  induction l with
  | nil => simp [sinsert, SortedKeys]
  | cons hd t ih =>
    obtain ⟨k0, v0⟩ := hd
    unfold SortedKeys at h
    simp only [List.map_cons, List.pairwise_cons] at h
    by_cases h1 : k < k0
    · unfold SortedKeys
      simp only [sinsert, klt_pos h1, if_pos, List.map_cons, List.pairwise_cons]
      refine ⟨?_, h.1, h.2⟩
      intro a ha
      rcases List.mem_cons.mp ha with rfl | ha'
      · exact h1
      · exact lt_trans h1 (h.1 a ha')
    · by_cases h2 : k = k0
      · subst h2
        have e : sinsert ((k, v0) :: t) k v = (k, v) :: t := by
          simp [sinsert, klt_neg h1]
        unfold SortedKeys
        rw [e]
        simp only [List.map_cons, List.pairwise_cons]
        exact ⟨h.1, h.2⟩
      · have hk0 : k0 < k := by
          rcases lt_trichotomy k k0 with hlt | heq | hgt
          · exact absurd hlt h1
          · exact absurd heq h2
          · exact hgt
        unfold SortedKeys
        simp only [sinsert, klt_neg h1, if_neg h2, List.map_cons,
          List.pairwise_cons]
        constructor
        · intro a ha
          rcases mem_keys_sinsert t k v a ha with rfl | ha'
          · exact hk0
          · exact h.1 a ha'
        · exact ih h.2

end Smap

/-- HTTP methods, mirroring `paperclip_core::v2::models::HttpMethod`. -/
inductive HttpMethod : Type
  | get
  | put
  | post
  | delete
  | options
  | head
  | patch
deriving DecidableEq

/-- Numeric rank of an `HttpMethod`, used only to order `BTreeMap` keys. -/
def HttpMethod.toNat : HttpMethod → Nat
  | .get => 0
  | .put => 1
  | .post => 2
  | .delete => 3
  | .options => 4
  | .head => 5
  | .patch => 6

theorem HttpMethod.toNat_injective : Function.Injective HttpMethod.toNat := by
  intro a b h
  cases a <;> cases b <;> simp_all [HttpMethod.toNat]

instance : LinearOrder HttpMethod :=
  LinearOrder.lift' HttpMethod.toNat HttpMethod.toNat_injective

instance : KeyCmp HttpMethod where
  klt a b := Nat.blt a.toNat b.toNat
  klt_iff a b := by
    rw [Nat.blt_eq]
    exact Iff.rfl

/-- Modelled from the spec: `DefaultPathItemRaw` lives in `paperclip-core`,
which is not among the sources here.  Spec §3: a PathItem is the per-path
mapping from HTTP method to Operation; the struct also carries path-level
parameters, opaque to the aggregation engine. -/
structure DefaultPathItemRaw (Param Op : Type) where
  parameters : List Param
  methods : List (HttpMethod × Op)
deriving DecidableEq

/-- Rust `Default::default()` for a path item: empty parameter list, empty
method map. -/
def emptyPathItem {Param Op : Type} : DefaultPathItemRaw Param Op :=
  ⟨[], []⟩

/-- Modelled from the spec: `DefaultApiRaw` lives in `paperclip-core`, which
is not among the sources here.  Spec §3 Document: `paths`, `definitions`,
`securityDefinitions` and the optional `basePath`; `extra` stands for every
remaining field of the struct (info, host, tags, ...), which the aggregation
engine never touches. -/
structure DefaultApiRaw (Param Op Sch Sec Extra : Type) where
  base_path : Option String
  paths : List (String × DefaultPathItemRaw Param Op)
  definitions : List (String × Sch)
  security_definitions : List (String × Sec)
  extra : Extra
deriving DecidableEq

/-- The fresh Document of `wrap_api`: `DefaultApiRaw::default()`, all maps
empty. -/
def emptyApi {Param Op Sch Sec Extra : Type} (e : Extra) :
    DefaultApiRaw Param Op Sch Sec Extra :=
  ⟨none, [], [], [], e⟩

/-- One contributor's fragment: the data a `Mountable` exposes through
`path()`, `operations()`, `definitions()` and `security_definitions()`. -/
structure Mountable (Param Op Sch Sec : Type) where
  path : String
  operations : List (HttpMethod × Op)
  definitions : List (String × Sch)
  security_definitions : List (String × Sec)
deriving DecidableEq

variable {Param Op Sch Sec Extra : Type}

/-- `Mountable::update_operations` (lib.rs 96-101): look up or insert the
`PathItem` at `self.path()` and extend its method map with
`self.operations()`. -/
def update_operations (f : Mountable Param Op Sch Sec)
    (map : List (String × DefaultPathItemRaw Param Op)) :
    List (String × DefaultPathItemRaw Param Op) :=
  let op_map := (slookup map f.path).getD emptyPathItem
  sinsert map f.path { op_map with methods := sextend op_map.methods f.operations }

/-- Modelled from the spec: `SecurityScheme::append_map` lives in
`paperclip-core`, which is not among the sources here.  Spec §4.1 clause 2:
merge the fragment's security definitions into the Document's with the
overwrite policy, total, preserving scheme identity for unrelated names. -/
def append_map (new old : List (String × Sec)) : List (String × Sec) :=
  sextend old new

/-- `App::update_from_mountable` (lib.rs 367-383): extend `definitions`,
append the security definitions, run `update_operations` on `paths`, and,
when the `normalize` feature flag is set, normalize every `PathItem` of the
Document.  The compile-time `cfg!(feature = "normalize")` is the Boolean
`normalizeFlag`; the body of `PathItem::normalize` lives in
`paperclip-core` and is the abstract function `nf`. -/
def update_from_mountable (normalizeFlag : Bool)
    (nf : DefaultPathItemRaw Param Op → DefaultPathItemRaw Param Op)
    (api : DefaultApiRaw Param Op Sch Sec Extra)
    (f : Mountable Param Op Sch Sec) :
    DefaultApiRaw Param Op Sch Sec Extra :=
  let defs := sextend api.definitions f.definitions
  let secs := append_map f.security_definitions api.security_definitions
  let paths := update_operations f api.paths
  { api with
    definitions := defs
    security_definitions := secs
    paths := if normalizeFlag then mapValues nf paths else paths }

/-- Decides whether `pat` is an initial segment of `s` (what
`str::starts_with` checks for a literal pattern). -/
def leadsWith : List Char → List Char → Bool
  | [], _ => true
  | _ :: _, [] => false
  | a :: as, b :: bs => a = b && leadsWith as bs

/-- Fuel-indexed repeated stripping of the pattern from the front of the
string; fuel `s.length` always suffices (`trimLead_eq` below recovers the
natural recursion). -/
def trimLeadAux : Nat → List Char → List Char → List Char
  | 0, _, s => s
  | n + 1, pat, s =>
    if pat ≠ [] ∧ leadsWith pat s then trimLeadAux n pat (s.drop pat.length)
    else s

/-- Rust `str::trim_start_matches` on character lists: repeatedly remove
`pat` from the front of `s` while it is a prefix. -/
def trimLead (pat s : List Char) : List Char :=
  trimLeadAux s.length pat s

/-- Rust `str::trim_start_matches` with a literal string pattern. -/
def trim_start_matches (s pat : String) : String :=
  String.mk (trimLead pat.data s.data)

theorem leadsWith_length (pat s : List Char) (h : leadsWith pat s = true) :
    pat.length ≤ s.length := by
  induction pat generalizing s with
  | nil => simp
  | cons a as ih =>
    cases s with
    | nil => simp [leadsWith] at h
    | cons b bs =>
      simp only [leadsWith, Bool.and_eq_true] at h
      simpa [List.length_cons] using ih bs h.2

theorem trimLeadAux_fuel (pat : List Char) :
    ∀ (n m : Nat) (s : List Char), s.length ≤ n → s.length ≤ m →
      trimLeadAux n pat s = trimLeadAux m pat s := by
  intro n
  induction n with
  | zero =>
    intro m s hn _
    have hs : s = [] := List.eq_nil_of_length_eq_zero (Nat.le_zero.mp hn)
    subst hs
    cases m with
    | zero => rfl
    | succ m' =>
      cases pat with
      | nil => simp [trimLeadAux]
      | cons a as => simp [trimLeadAux, leadsWith]
  | succ n' ih =>
    intro m s hn hm
    cases s with
    | nil =>
      cases m with
      | zero =>
        cases pat with
        | nil => simp [trimLeadAux]
        | cons a as => simp [trimLeadAux, leadsWith]
      | succ m' =>
        cases pat with
        | nil => simp [trimLeadAux]
        | cons a as => simp [trimLeadAux, leadsWith]
    | cons b bs =>
      cases m with
      | zero => simp [List.length_cons] at hm
      | succ m' =>
        by_cases hc : pat ≠ [] ∧ leadsWith pat (b :: bs)
        · simp only [trimLeadAux, if_pos hc]
          have hplen : 1 ≤ pat.length := by
            cases pat with
            | nil => exact absurd rfl hc.1
            | cons p ps => simp
          have hd : ((b :: bs).drop pat.length).length ≤ n' := by
            rw [List.length_drop]
            omega
          have hd' : ((b :: bs).drop pat.length).length ≤ m' := by
            rw [List.length_drop]
            omega
          exact ih m' _ hd hd'
        · simp only [trimLeadAux, if_neg hc]

theorem trimLead_eq (pat s : List Char) :
    trimLead pat s =
      if pat ≠ [] ∧ leadsWith pat s then trimLead pat (s.drop pat.length)
      else s := by
  cases s with
  | nil =>
    cases pat with
    | nil => simp [trimLead, trimLeadAux]
    | cons a as => simp [trimLead, trimLeadAux, leadsWith]
  | cons b bs =>
    by_cases hc : pat ≠ [] ∧ leadsWith pat (b :: bs)
    · have hplen : 1 ≤ pat.length := by
        cases pat with
        | nil => exact absurd rfl hc.1
        | cons p ps => simp
      have h1 : trimLead pat (b :: bs)
          = trimLeadAux bs.length pat ((b :: bs).drop pat.length) := by
        simp only [trimLead, List.length_cons, trimLeadAux, if_pos hc]
      have h2 : ((b :: bs).drop pat.length).length ≤ bs.length := by
        rw [List.length_drop]
        simp only [List.length_cons]
        omega
      rw [if_pos hc, h1]
      exact trimLeadAux_fuel pat bs.length ((b :: bs).drop pat.length).length
        ((b :: bs).drop pat.length) h2 (Nat.le_refl _)
    · simp only [trimLead, List.length_cons, trimLeadAux, if_neg hc]

theorem trimLead_of_not_leadsWith (pat s : List Char)
    (h : leadsWith pat s = false) : trimLead pat s = s := by
  rw [trimLead_eq]
  simp [h]

/-- `App::trim_base_path` (lib.rs 351-364): rebuild `paths` by folding over
the map in key order, inserting each value under its key with the base path
trimmed from the start. -/
def trim_base_path (api : DefaultApiRaw Param Op Sch Sec Extra) :
    DefaultApiRaw Param Op Sch Sec Extra :=
  let bp := api.base_path.getD ""
  { api with
    paths := api.paths.foldl
      (fun i kv => sinsert i (trim_start_matches kv.1 bp) kv.2) [] }

section TrimFold

variable {K : Type} [LinearOrder K] [DecidableEq K] [KeyCmp K] {V : Type}

/-- The fold of `trim_base_path`, abstracted over the key-rewriting
function: insert every entry of `l` into `acc` under its rewritten key. -/
def trimFold (f : K → K) (acc l : List (K × V)) : List (K × V) :=
  l.foldl (fun i kv => sinsert i (f kv.1) kv.2) acc

/-- The last entry of the list whose rewritten key equals `t` — the entry
whose value survives the rebuild fold. -/
def lastMatch (f : K → K) (t : K) : List (K × V) → Option (K × V)
  | [] => none
  | kv :: rest =>
    match lastMatch f t rest with
    | some r => some r
    | none => if f kv.1 = t then some kv else none

theorem mem_of_slookup (l : List (K × V)) (k : K) (v : V)
    (h : slookup l k = some v) : (k, v) ∈ l := by
  induction l with
  | nil => simp [slookup] at h
  | cons hd t ih =>
    obtain ⟨k0, v0⟩ := hd
    by_cases hk : k = k0
    · subst hk
      simp only [slookup, if_pos rfl] at h
      have hv := Option.some.inj h
      subst hv
      exact List.mem_cons_self _ _
    · simp only [slookup, if_neg hk] at h
      exact List.mem_cons_of_mem _ (ih h)

theorem lastMatch_some {f : K → K} {t : K} {l : List (K × V)} {r : K × V}
    (h : lastMatch f t l = some r) : r ∈ l ∧ f r.1 = t := by
  induction l with
  | nil => simp [lastMatch] at h
  | cons kv rest ih =>
    cases hr : lastMatch f t rest with
    | some r' =>
      simp only [lastMatch, hr] at h
      have hrr : r' = r := Option.some.inj h
      subst hrr
      have := ih hr
      exact ⟨List.mem_cons_of_mem _ this.1, this.2⟩
    | none =>
      simp only [lastMatch, hr] at h
      by_cases hc : f kv.1 = t
      · rw [if_pos hc] at h
        have hrr : kv = r := Option.some.inj h
        subst hrr
        exact ⟨List.mem_cons_self _ _, hc⟩
      · rw [if_neg hc] at h
        exact absurd h (by simp)

theorem slookup_trimFold (f : K → K) (acc l : List (K × V)) (t : K) :
    slookup (trimFold f acc l) t =
      match lastMatch f t l with
      | some r => some r.2
      | none => slookup acc t := by
  induction l generalizing acc with
  | nil => simp [trimFold, lastMatch]
  | cons kv rest ih =>
    have hstep : trimFold f acc (kv :: rest)
        = trimFold f (sinsert acc (f kv.1) kv.2) rest := rfl
    rw [hstep, ih]
    cases hr : lastMatch f t rest with
    | some r => simp [lastMatch, hr]
    | none =>
      simp only [lastMatch, hr]
      by_cases hc : f kv.1 = t
      · rw [if_pos hc, ← hc]
        simp [slookup_sinsert_self]
      · rw [if_neg hc]
        simpa using slookup_sinsert_ne acc (f kv.1) kv.2 t (fun h => hc h.symm)

theorem lastMatch_max {f : K → K} {t : K} {l : List (K × V)} {k : K} {v : V}
    (hs : SortedKeys l) (hmem : (k, v) ∈ l) (hfk : f k = t)
    (hmax : ∀ kv ∈ l, f kv.1 = t → kv.1 ≤ k) :
    lastMatch f t l = some (k, v) := by
  induction l with
  | nil => simp at hmem
  | cons kv0 rest ih =>
    have hs2 := hs
    unfold SortedKeys at hs2
    simp only [List.map_cons, List.pairwise_cons] at hs2
    have hs' : SortedKeys rest := hs2.2
    have hlt : ∀ a ∈ rest.map Prod.fst, kv0.1 < a := hs2.1
    by_cases hin : (k, v) ∈ rest
    · have hrec : lastMatch f t rest = some (k, v) :=
        ih hs' hin (fun kv h' hf => hmax kv (List.mem_cons_of_mem _ h') hf)
      simp [lastMatch, hrec]
    · have hk0 : kv0 = (k, v) := by
        rcases List.mem_cons.mp hmem with h | h
        · exact h.symm
        · exact absurd h hin
      subst hk0
      have hnone : lastMatch f t rest = none := by
        cases hr : lastMatch f t rest with
        | none => rfl
        | some r =>
          have hp := lastMatch_some hr
          have h1 : r.1 ≤ k := hmax r (List.mem_cons_of_mem _ hp.1) hp.2
          have h2 : k < r.1 := hlt r.1 (List.mem_map_of_mem Prod.fst hp.1)
          exact absurd h1 (not_le.mpr h2)
      simp [lastMatch, hnone, hfk]

theorem lastMatch_of_nodupImages {f : K → K} {l : List (K × V)} {k : K}
    {v : V} (hmem : (k, v) ∈ l)
    (hnd : (l.map fun kv => f kv.1).Nodup) :
    lastMatch f (f k) l = some (k, v) := by
  induction l with
  | nil => simp at hmem
  | cons kv0 rest ih =>
    simp only [List.map_cons, List.nodup_cons] at hnd
    rcases List.mem_cons.mp hmem with heq | hin
    · have hnone : lastMatch f (f k) rest = none := by
        cases hr : lastMatch f (f k) rest with
        | none => rfl
        | some r =>
          have hp := lastMatch_some hr
          have hcontra : f k ∈ rest.map fun kv => f kv.1 := by
            rw [← hp.2]
            exact List.mem_map_of_mem _ hp.1
          exact absurd hcontra (by simpa [← heq] using hnd.1)
      simp [lastMatch, hnone, ← heq]
    · have hrec := ih hin hnd.2
      simp [lastMatch, hrec]

theorem trimFold_sortedKeys (f : K → K) (acc l : List (K × V))
    (h : SortedKeys acc) : SortedKeys (trimFold f acc l) := by
  induction l generalizing acc with
  | nil => exact h
  | cons kv rest ih => exact ih _ (sinsert_sortedKeys _ _ _ h)

theorem count_keys_eq_one {l : List (K × V)} {t : K} {v : V}
    (hs : SortedKeys l) (h : slookup l t = some v) :
    (l.map Prod.fst).count t = 1 :=
  List.count_eq_one_of_mem
    (List.Pairwise.imp (fun hab => ne_of_lt hab) hs)
    (mem_keys_of_slookup l t v h)

end TrimFold

/-- The spec-tracking state of the `App` wrapper: the v2 Document behind its
lock, and the optional v3 cache created by `with_json_spec_v3_at`. -/
structure App (Param Op Sch Sec Extra V3 : Type) where
  spec : DefaultApiRaw Param Op Sch Sec Extra
  spec_v3 : Option V3

/-- `App::with_json_spec_v3_at` (lib.rs 290-305): if no v3 cache exists yet,
create one holding `OpenAPI::default()` (the abstract `defaultV3`); the
route registration itself is framework glue outside this model. -/
def with_json_spec_v3_at {V3 : Type} (defaultV3 : V3)
    (a : App Param Op Sch Sec Extra V3) : App Param Op Sch Sec Extra V3 :=
  match a.spec_v3 with
  | some _ => a
  | none => { a with spec_v3 := some defaultV3 }

/-- `App::build` (lib.rs 338-345): if a v3 cache was registered, overwrite
it with the translation of the current v2 Document.  The body of
`paperclip_core::v3::openapiv2_to_v3` lives outside these sources and is
the abstract function `tr`. -/
def build {V3 : Type} (tr : DefaultApiRaw Param Op Sch Sec Extra → V3)
    (a : App Param Op Sch Sec Extra V3) : App Param Op Sch Sec Extra V3 :=
  match a.spec_v3 with
  | some _ => { a with spec_v3 := some (tr a.spec) }
  | none => a

/-- The operation the Document records for HTTP method `m` at path `p`. -/
def methodAt (api : DefaultApiRaw Param Op Sch Sec Extra) (p : String)
    (m : HttpMethod) : Option Op :=
  (slookup api.paths p).bind (fun it => slookup it.methods m)

theorem update_from_mountable_paths_false
    (nf : DefaultPathItemRaw Param Op → DefaultPathItemRaw Param Op)
    (api : DefaultApiRaw Param Op Sch Sec Extra)
    (f : Mountable Param Op Sch Sec) :
    (update_from_mountable false nf api f).paths
      = update_operations f api.paths := rfl

theorem update_from_mountable_paths_true
    (nf : DefaultPathItemRaw Param Op → DefaultPathItemRaw Param Op)
    (api : DefaultApiRaw Param Op Sch Sec Extra)
    (f : Mountable Param Op Sch Sec) :
    (update_from_mountable true nf api f).paths
      = mapValues nf (update_operations f api.paths) := rfl

theorem update_from_mountable_definitions (flag : Bool)
    (nf : DefaultPathItemRaw Param Op → DefaultPathItemRaw Param Op)
    (api : DefaultApiRaw Param Op Sch Sec Extra)
    (f : Mountable Param Op Sch Sec) :
    (update_from_mountable flag nf api f).definitions
      = sextend api.definitions f.definitions := rfl

theorem update_from_mountable_security (flag : Bool)
    (nf : DefaultPathItemRaw Param Op → DefaultPathItemRaw Param Op)
    (api : DefaultApiRaw Param Op Sch Sec Extra)
    (f : Mountable Param Op Sch Sec) :
    (update_from_mountable flag nf api f).security_definitions
      = sextend api.security_definitions f.security_definitions := rfl

theorem update_operations_def (f : Mountable Param Op Sch Sec)
    (map : List (String × DefaultPathItemRaw Param Op)) :
    update_operations f map
      = sinsert map f.path
          { parameters := ((slookup map f.path).getD emptyPathItem).parameters
            methods :=
              sextend ((slookup map f.path).getD emptyPathItem).methods
                f.operations } := rfl

theorem isSome_paths_update_from_mountable (flag : Bool)
    (nf : DefaultPathItemRaw Param Op → DefaultPathItemRaw Param Op)
    (api : DefaultApiRaw Param Op Sch Sec Extra)
    (f : Mountable Param Op Sch Sec) (q : String) :
    (slookup (update_from_mountable flag nf api f).paths q).isSome
      ↔ q = f.path ∨ (slookup api.paths q).isSome := by
  cases flag
  · rw [update_from_mountable_paths_false, update_operations_def]
    exact isSome_slookup_sinsert _ _ _ _
  · rw [update_from_mountable_paths_true, slookup_mapValues,
      update_operations_def]
    rw [Option.isSome_map']
    exact isSome_slookup_sinsert _ _ _ _

theorem oUnion_none_right {V : Type} (a : Option V) : oUnion a none = a := by
  cases a <;> rfl

theorem oUnion_comm_of_disjoint {V : Type} (a b : Option V)
    (h : a = none ∨ b = none) : oUnion a b = oUnion b a := by
  rcases h with rfl | rfl
  · rw [oUnion_none_right]
    rfl
  · rw [oUnion_none_right]
    rfl

theorem slookup_single_eq {K : Type} [LinearOrder K] [DecidableEq K]
    [KeyCmp K] {V : Type} (p q : K) (v : V) (h : q = p) :
    slookup [(p, v)] q = some v := by
  subst h
  simp [slookup]

/-- Claim C2: same-path/same-method and same-definition-name collisions
resolve last-write-wins: after mounting contributor A and then contributor
B, the method entry equals B's operation and the definition entry equals
B's body; the merge is total (no failure, no reported conflict). -/
theorem claim2_last_write_wins
    (nf : DefaultPathItemRaw Param Op → DefaultPathItemRaw Param Op)
    (api : DefaultApiRaw Param Op Sch Sec Extra)
    (fA fB : Mountable Param Op Sch Sec) (m : HttpMethod)
    (opA opB : Op) (n : String) (schA schB : Sch)
    (hpath : fA.path = fB.path)
    (hopsB : NodupKeys fB.operations)
    (hdefsB : NodupKeys fB.definitions)
    (hmA : slookup fA.operations m = some opA)
    (hmB : slookup fB.operations m = some opB)
    (hdA : slookup fA.definitions n = some schA)
    (hdB : slookup fB.definitions n = some schB)
    (hne : schA ≠ schB) :
    methodAt
        (update_from_mountable false nf
          (update_from_mountable false nf api fA) fB) fB.path m = some opB
    ∧ slookup
        (update_from_mountable false nf
          (update_from_mountable false nf api fA) fB).definitions n
        = some schB := by
  constructor
  · unfold methodAt
    rw [update_from_mountable_paths_false, update_operations_def,
      slookup_sinsert_self]
    show slookup (sextend _ fB.operations) m = some opB
    rw [slookup_sextend _ _ _ hopsB, hmB]
    rfl
  · rw [update_from_mountable_definitions, slookup_sextend _ _ _ hdefsB, hdB]
    rfl

/-- Claim C4: for contributors with distinct paths, mounting A then B and
mounting B then A (from a fresh Document) produce the same set of path
keys, the union of the two contributed paths. -/
theorem claim4_disjoint_paths_commute (flag : Bool)
    (nf : DefaultPathItemRaw Param Op → DefaultPathItemRaw Param Op)
    (e : Extra) (fA fB : Mountable Param Op Sch Sec)
    (hne : fA.path ≠ fB.path) :
    ∀ k,
      ((slookup (update_from_mountable flag nf
          (update_from_mountable flag nf (emptyApi e) fA) fB).paths k).isSome
        ↔ (k = fA.path ∨ k = fB.path))
      ∧ ((slookup (update_from_mountable flag nf
          (update_from_mountable flag nf (emptyApi e) fB) fA).paths k).isSome
        ↔ (k = fA.path ∨ k = fB.path)) := by
  intro k
  constructor
  · rw [isSome_paths_update_from_mountable, isSome_paths_update_from_mountable]
    simp only [emptyApi, slookup]
    simp
    tauto
  · rw [isSome_paths_update_from_mountable, isSome_paths_update_from_mountable]
    simp only [emptyApi, slookup]
    simp

/-- Claim C1: two contributors at the same path with disjoint method maps
and disjoint definition names, mounted in sequence into a fresh Document,
yield a single `PathItem` at that path whose method map is the union of the
two method maps, and a definitions map that is the union of the two
definitions maps. -/
theorem claim1_same_path_disjoint_union
    (nf : DefaultPathItemRaw Param Op → DefaultPathItemRaw Param Op)
    (e : Extra) (fA fB : Mountable Param Op Sch Sec)
    (hpath : fA.path = fB.path)
    (hopsA : NodupKeys fA.operations) (hopsB : NodupKeys fB.operations)
    (hdefsA : NodupKeys fA.definitions) (hdefsB : NodupKeys fB.definitions)
    (hm : ∀ m, slookup fA.operations m = none ∨ slookup fB.operations m = none)
    (hd : ∀ n, slookup fA.definitions n = none ∨ slookup fB.definitions n = none) :
    ((update_from_mountable false nf
        (update_from_mountable false nf (emptyApi e) fA) fB).paths.map Prod.fst
      = [fB.path])
    ∧ (∀ m, methodAt (update_from_mountable false nf
          (update_from_mountable false nf (emptyApi e) fA) fB) fB.path m
        = oUnion (slookup fA.operations m) (slookup fB.operations m))
    ∧ (∀ n, slookup (update_from_mountable false nf
          (update_from_mountable false nf (emptyApi e) fA) fB).definitions n
        = oUnion (slookup fA.definitions n) (slookup fB.definitions n)) := by
  have hpp : fB.path = fA.path := hpath.symm
  have hD1 : (update_from_mountable false nf (emptyApi e) fA).paths
      = [(fA.path, ⟨[], sextend [] fA.operations⟩)] := rfl
  have hlook : slookup
      [(fA.path, (⟨[], sextend [] fA.operations⟩ : DefaultPathItemRaw Param Op))]
      fB.path = some ⟨[], sextend [] fA.operations⟩ :=
    slookup_single_eq _ _ _ hpp
  have hD2 : (update_from_mountable false nf
      (update_from_mountable false nf (emptyApi e) fA) fB).paths
      = [(fA.path, ⟨[], sextend (sextend [] fA.operations) fB.operations⟩)] := by
    rw [update_from_mountable_paths_false, hD1, update_operations_def, hlook]
    rw [hpp]
    simp [sinsert, klt_neg (lt_irrefl fA.path)]
  refine ⟨?_, fun m => ?_, fun n => ?_⟩
  · rw [hD2, hpath]
    rfl
  · unfold methodAt
    rw [hD2, slookup_single_eq _ _ _ hpp]
    show slookup (sextend (sextend [] fA.operations) fB.operations) m = _
    rw [slookup_sextend _ _ _ hopsB, slookup_sextend _ _ _ hopsA]
    have hnil : slookup ([] : List (HttpMethod × Op)) m = none := rfl
    rw [hnil, oUnion_none_right]
    exact oUnion_comm_of_disjoint _ _ ((hm m).symm.imp id id)
  · rw [update_from_mountable_definitions, update_from_mountable_definitions]
    show slookup (sextend (sextend [] fA.definitions) fB.definitions) n = _
    rw [slookup_sextend _ _ _ hdefsB, slookup_sextend _ _ _ hdefsA]
    have hnil : slookup ([] : List (String × Sch)) n = none := rfl
    rw [hnil, oUnion_none_right]
    exact oUnion_comm_of_disjoint _ _ ((hd n).symm.imp id id)

/-- Claim C5: when the `normalize` feature flag is enabled, a merge ends by
normalizing every `PathItem` currently present in the Document (the value
at every key of the merged map is the normalizer applied to what the plain
merge would hold there), and when the flag is disabled the merged paths are
exactly the plain `update_operations` result, with no normalization
applied anywhere. -/
theorem claim5_normalize_pass
    (nf : DefaultPathItemRaw Param Op → DefaultPathItemRaw Param Op)
    (api : DefaultApiRaw Param Op Sch Sec Extra)
    (f : Mountable Param Op Sch Sec) :
    (∀ k, slookup (update_from_mountable true nf api f).paths k
        = (slookup (update_from_mountable false nf api f).paths k).map nf)
    ∧ (update_from_mountable false nf api f).paths
        = update_operations f api.paths := by
  refine ⟨fun k => ?_, rfl⟩
  rw [update_from_mountable_paths_true, update_from_mountable_paths_false,
    slookup_mapValues]

/-- Claim C6: merging a contributor touches only `paths`, `definitions`
and `security_definitions`; every other Document field — in particular
`base_path` — is unchanged. -/
theorem claim6_merge_frame (flag : Bool)
    (nf : DefaultPathItemRaw Param Op → DefaultPathItemRaw Param Op)
    (api : DefaultApiRaw Param Op Sch Sec Extra)
    (f : Mountable Param Op Sch Sec) :
    (update_from_mountable flag nf api f).base_path = api.base_path
    ∧ (update_from_mountable flag nf api f).extra = api.extra :=
  ⟨rfl, rfl⟩

/-- Claim C7: if a translated-spec endpoint was registered (the v3 cache
exists), `build` overwrites the cache with the translation of the final v2
Document, leaving the v2 Document itself untouched. -/
theorem claim7_build_recomputes_v3 {V3 : Type}
    (tr : DefaultApiRaw Param Op Sch Sec Extra → V3)
    (a : App Param Op Sch Sec Extra V3) (c : V3)
    (h : a.spec_v3 = some c) :
    (build tr a).spec_v3 = some (tr a.spec) ∧ (build tr a).spec = a.spec := by
  constructor
  · unfold build
    rw [h]
  · unfold build
    rw [h]

/-- Claim C10: a mount never removes entries — every path key, definition
name and security-definition name present before the merge is still
present after it. -/
theorem claim10_mount_monotone (flag : Bool)
    (nf : DefaultPathItemRaw Param Op → DefaultPathItemRaw Param Op)
    (api : DefaultApiRaw Param Op Sch Sec Extra)
    (f : Mountable Param Op Sch Sec) :
    (∀ k, (slookup api.paths k).isSome →
      (slookup (update_from_mountable flag nf api f).paths k).isSome)
    ∧ (∀ n, (slookup api.definitions n).isSome →
      (slookup (update_from_mountable flag nf api f).definitions n).isSome)
    ∧ (∀ n, (slookup api.security_definitions n).isSome →
      (slookup (update_from_mountable flag nf api f).security_definitions n).isSome) := by
  refine ⟨fun k hk => ?_, fun n hn => ?_, fun n hn => ?_⟩
  · exact (isSome_paths_update_from_mountable flag nf api f k).mpr (Or.inr hk)
  · rw [update_from_mountable_definitions]
    exact isSome_slookup_sextend_mono _ _ _ hn
  · rw [update_from_mountable_security]
    exact isSome_slookup_sextend_mono _ _ _ hn

end Paperclip

namespace Paperclip

/-- Concrete path item used in the `trim_base_path` counterexample. -/
def itemC3 : DefaultPathItemRaw Unit Nat :=
  ⟨[], [(HttpMethod.get, 5)]⟩

/-- Concrete Document for the `trim_base_path` counterexample: base path
`/a` and a single path `/a/a/x`, which starts with the base path. -/
def apiC3 : DefaultApiRaw Unit Nat Nat Nat Unit :=
  { base_path := some "/a"
    paths := [("/a/a/x", itemC3)]
    definitions := []
    security_definitions := []
    extra := () }

/-- Claim C3, counterexample: stripping the base-path prefix `/a` once from
the key `/a/a/x` (which starts with it) would give `/a/x`, but
`trim_base_path` uses Rust's `trim_start_matches`, which strips the prefix
repeatedly — the rewritten map has no key `/a/x`; the entry sits at `/x`
instead. -/
theorem claim3_counterexample :
    slookup (trim_base_path apiC3).paths "/a/x" = none
    ∧ slookup (trim_base_path apiC3).paths "/x" = some itemC3 := by
  constructor
  · decide
  · decide

/-- Claim C3 as amended: when no two path keys rewrite to the same string,
`trim_base_path` replaces each path key by the key with the base-path
prefix repeatedly stripped from the start (a key not starting with the
prefix is left unchanged), and the `PathItem` values attached to the keys
are preserved. -/
theorem claim3_amended_trim_base_path
    (api : DefaultApiRaw Param Op Sch Sec Extra)
    (hnd : (api.paths.map
        (fun kv => trim_start_matches kv.1 (api.base_path.getD ""))).Nodup) :
    (∀ k v, slookup api.paths k = some v →
      slookup (trim_base_path api).paths
        (trim_start_matches k (api.base_path.getD "")) = some v)
    ∧ (∀ k : String, leadsWith (api.base_path.getD "").data k.data = false →
        trim_start_matches k (api.base_path.getD "") = k) := by
  constructor
  · intro k v hkv
    have hres : (trim_base_path api).paths
        = trimFold (fun q => trim_start_matches q (api.base_path.getD ""))
            [] api.paths := rfl
    rw [hres, slookup_trimFold,
      lastMatch_of_nodupImages (mem_of_slookup api.paths k v hkv) hnd]
  · intro k hk
    show String.mk (trimLead (api.base_path.getD "").data k.data) = k
    rw [trimLead_of_not_leadsWith _ _ hk]

/-- Claim C9: when several distinct path keys rewrite to the same trimmed
string, the rebuilt `paths` map holds that trimmed key exactly once, bound
to the `PathItem` of the lexicographically greatest colliding original key
(the `BTreeMap` fold visits keys in ascending order and later inserts
overwrite earlier ones). -/
theorem claim9_trim_collision
    (api : DefaultApiRaw Param Op Sch Sec Extra)
    (hs : SortedKeys api.paths)
    (k1 : String) (v1 : DefaultPathItemRaw Param Op)
    (k2 : String) (v2 : DefaultPathItemRaw Param Op)
    (h1 : (k1, v1) ∈ api.paths) (h2 : (k2, v2) ∈ api.paths)
    (hne : k1 ≠ k2)
    (ht : trim_start_matches k1 (api.base_path.getD "")
        = trim_start_matches k2 (api.base_path.getD ""))
    (hmax : ∀ kv ∈ api.paths,
      trim_start_matches kv.1 (api.base_path.getD "")
          = trim_start_matches k2 (api.base_path.getD "") → kv.1 ≤ k2) :
    slookup (trim_base_path api).paths
        (trim_start_matches k2 (api.base_path.getD "")) = some v2
    ∧ ((trim_base_path api).paths.map Prod.fst).count
        (trim_start_matches k2 (api.base_path.getD "")) = 1 := by
  have hres : (trim_base_path api).paths
      = trimFold (fun q => trim_start_matches q (api.base_path.getD ""))
          [] api.paths := rfl
  have hlook : slookup (trim_base_path api).paths
      (trim_start_matches k2 (api.base_path.getD "")) = some v2 := by
    rw [hres, slookup_trimFold, lastMatch_max hs h2 rfl hmax]
  refine ⟨hlook, ?_⟩
  have hsorted : SortedKeys (trim_base_path api).paths := by
    rw [hres]
    apply trimFold_sortedKeys
    simp [SortedKeys]
  exact count_keys_eq_one hsorted hlook

end Paperclip

namespace Paperclip

/-- Concrete contributor `/pets` with a GET operation and a `Pet` schema. -/
def fAW : Mountable Unit Nat Nat Nat :=
  { path := "/pets", operations := [(HttpMethod.get, 1)]
    definitions := [("Pet", 10)], security_definitions := [] }

/-- Concrete contributor `/pets` with a POST operation and a `NewPet`
schema. -/
def fBW : Mountable Unit Nat Nat Nat :=
  { path := "/pets", operations := [(HttpMethod.post, 2)]
    definitions := [("NewPet", 11)], security_definitions := [] }

theorem claim1_witness :
    ((update_from_mountable false id
        (update_from_mountable false id (emptyApi ()) fAW) fBW).paths.map
        Prod.fst = [fBW.path])
    ∧ methodAt (update_from_mountable false id
          (update_from_mountable false id (emptyApi ()) fAW) fBW) fBW.path
        HttpMethod.get
        = oUnion (slookup fAW.operations HttpMethod.get)
            (slookup fBW.operations HttpMethod.get)
    ∧ slookup (update_from_mountable false id
          (update_from_mountable false id (emptyApi ()) fAW) fBW).definitions
        "Pet"
        = oUnion (slookup fAW.definitions "Pet")
            (slookup fBW.definitions "Pet") := by
  have h := claim1_same_path_disjoint_union id () fAW fBW rfl
    (by unfold NodupKeys; decide) (by unfold NodupKeys; decide)
    (by unfold NodupKeys; decide) (by unfold NodupKeys; decide)
    (fun m => by cases m <;> decide)
    (fun n => by
      by_cases hn : n = "Pet"
      · subst hn
        right
        decide
      · left
        simp [fAW, slookup, hn])
  exact ⟨h.1, h.2.1 HttpMethod.get, h.2.2 "Pet"⟩

/-- Concrete contributor `/pets` registering GET and an `Error` schema. -/
def fA2 : Mountable Unit Nat Nat Nat :=
  { path := "/pets", operations := [(HttpMethod.get, 1)]
    definitions := [("Error", 1)], security_definitions := [] }

/-- Second contributor `/pets` with the same method and schema name but
different bodies. -/
def fB2 : Mountable Unit Nat Nat Nat :=
  { path := "/pets", operations := [(HttpMethod.get, 2)]
    definitions := [("Error", 2)], security_definitions := [] }

theorem claim2_witness :
    methodAt (update_from_mountable false id
        (update_from_mountable false id (emptyApi ()) fA2) fB2) fB2.path
      HttpMethod.get = some 2
    ∧ slookup (update_from_mountable false id
        (update_from_mountable false id (emptyApi ()) fA2) fB2).definitions
      "Error" = some 2 :=
  claim2_last_write_wins id (emptyApi ()) fA2 fB2 HttpMethod.get 1 2 "Error"
    1 2 rfl (by unfold NodupKeys; decide) (by unfold NodupKeys; decide)
    (by decide) (by decide) (by decide) (by decide) (by decide)

/-- Concrete Document for the amended C3 witness: keys `/a/a/x` and `/b`
rewrite to the distinct strings `/x` and `/b`. -/
def apiW3 : DefaultApiRaw Unit Nat Nat Nat Unit :=
  { base_path := some "/a"
    paths := [("/a/a/x", itemC3), ("/b", emptyPathItem)]
    definitions := [], security_definitions := [], extra := () }

theorem claim3_amended_witness :
    slookup (trim_base_path apiW3).paths
        (trim_start_matches "/a/a/x" (apiW3.base_path.getD ""))
      = some itemC3
    ∧ trim_start_matches "/b" (apiW3.base_path.getD "") = "/b" := by
  have h := claim3_amended_trim_base_path apiW3 (by decide)
  exact ⟨h.1 "/a/a/x" itemC3 (by decide), h.2 "/b" (by decide)⟩

/-- Contributor at path `/a` with no operations. -/
def fA4 : Mountable Unit Nat Nat Nat :=
  { path := "/a", operations := [], definitions := []
    security_definitions := [] }

/-- Contributor at path `/b` with no operations. -/
def fB4 : Mountable Unit Nat Nat Nat :=
  { path := "/b", operations := [], definitions := []
    security_definitions := [] }

theorem claim4_witness :
    ((slookup (update_from_mountable false id
        (update_from_mountable false id (emptyApi ()) fA4) fB4).paths
        "/a").isSome ↔ ("/a" = fA4.path ∨ "/a" = fB4.path))
    ∧ ((slookup (update_from_mountable false id
        (update_from_mountable false id (emptyApi ()) fB4) fA4).paths
        "/a").isSome ↔ ("/a" = fA4.path ∨ "/a" = fB4.path)) :=
  claim4_disjoint_paths_commute false id () fA4 fB4 (by decide) "/a"

/-- App state with a registered v3 cache, for the C7 witness. -/
def appW7 : App Unit Nat Nat Nat Unit Nat :=
  { spec := emptyApi (), spec_v3 := some 0 }

theorem claim7_witness :
    (build (fun _ => 7) appW7).spec_v3 = some 7
    ∧ (build (fun _ => 7) appW7).spec = appW7.spec :=
  claim7_build_recomputes_v3 (fun _ => 7) appW7 0 rfl

/-- Path item surviving the C9 collision. -/
def itemP : DefaultPathItemRaw Unit Nat :=
  ⟨[], [(HttpMethod.get, 1)]⟩

/-- Path item dropped in the C9 collision. -/
def itemQ : DefaultPathItemRaw Unit Nat :=
  ⟨[], [(HttpMethod.get, 2)]⟩

/-- Concrete Document for the C9 witness: `/a/a/x` and `/a/x` both rewrite
to `/x` under base path `/a`. -/
def apiW9 : DefaultApiRaw Unit Nat Nat Nat Unit :=
  { base_path := some "/a"
    paths := [("/a/a/x", itemQ), ("/a/x", itemP)]
    definitions := [], security_definitions := [], extra := () }

theorem claim9_witness :
    slookup (trim_base_path apiW9).paths
        (trim_start_matches "/a/x" (apiW9.base_path.getD "")) = some itemP
    ∧ ((trim_base_path apiW9).paths.map Prod.fst).count
        (trim_start_matches "/a/x" (apiW9.base_path.getD "")) = 1 := by
  have hlt : ("/a/a/x" : String) < "/a/x" :=
    (KeyCmp.klt_iff _ _).mp (by decide)
  have hs : SortedKeys apiW9.paths := by
    unfold SortedKeys
    refine List.Pairwise.cons ?_ ?_
    · intro a ha
      simp only [apiW9, List.map_cons, List.map_nil, List.mem_cons,
        List.not_mem_nil, or_false] at ha
      subst ha
      exact hlt
    · exact List.pairwise_singleton _ _
  exact claim9_trim_collision apiW9 hs "/a/a/x" itemQ "/a/x" itemP
    (by decide) (by decide) (by decide) (by decide)
    (fun kv hkv htr => by
      simp only [apiW9, List.mem_cons, List.not_mem_nil, or_false] at hkv
      rcases hkv with rfl | rfl
      · exact le_of_lt hlt
      · exact le_refl _)

/-- Concrete Document with one entry in each map, for the C10 witness. -/
def apiW10 : DefaultApiRaw Unit Nat Nat Nat Unit :=
  { base_path := none, paths := [("/p", itemP)], definitions := [("D", 1)]
    security_definitions := [("S", 2)], extra := () }

/-- Contributor at a fresh path, for the C10 witness. -/
def fW10 : Mountable Unit Nat Nat Nat :=
  { path := "/q", operations := [], definitions := []
    security_definitions := [] }

theorem claim10_witness :
    (slookup (update_from_mountable false id apiW10 fW10).paths
      "/p").isSome = true
    ∧ (slookup (update_from_mountable false id apiW10 fW10).definitions
      "D").isSome = true
    ∧ (slookup (update_from_mountable false id
        apiW10 fW10).security_definitions "S").isSome = true := by
  have h := claim10_mount_monotone false id apiW10 fW10
  exact ⟨h.1 "/p" (by decide), h.2.1 "D" (by decide), h.2.2 "S" (by decide)⟩

end Paperclip
